import Mathlib

/-!
Shallow embedding of the credential and session core of the
`legacy-app-secure` application (files `utils.py` and `models.py`).

Strings are modelled as lists of Unicode codepoints (`Str := List Nat`).
Wall-clock timestamps are integers (seconds); `timedelta(hours=h)` is
`h * 3600` seconds.  The SQLite store backing `User` and `Session` rows is
an explicit list of records threaded through the operations; the outcome
of a database statement (success / `IntegrityError` / other `sqlite3.Error`
/ unexpected exception) is an explicit parameter where the source branches
on it.  Python exceptions are modelled with `Except`.
-/

namespace LegacyAppSecure

/-- A Python string, as its list of Unicode codepoints. -/
abbrev Str := List Nat

/-! ### utils.py : sanitize_input -/

/-- The codepoints on which Python `str.split()` (no separator) splits:
the characters for which `Py_UNICODE_ISSPACE` holds. -/
def pyIsSpace (c : Nat) : Bool :=
  decide (9 ≤ c ∧ c ≤ 13) || decide (28 ≤ c ∧ c ≤ 31) || decide (c = 32) ||
  decide (c = 133) || decide (c = 160) || decide (c = 5760) ||
  decide (8192 ≤ c ∧ c ≤ 8202) || decide (c = 8232) || decide (c = 8233) ||
  decide (c = 8239) || decide (c = 8287) || decide (c = 12288)

/-- The character filter of `sanitize_input`: keep `c` iff it is
newline, carriage return or tab, or not a C0 control character or DEL. -/
def pyKeep (c : Nat) : Bool :=
  (decide (c = 10) || decide (c = 13) || decide (c = 9)) ||
  !(decide (c ≤ 31) || decide (c = 127))

/-- Helper for `splitWs`: `acc` is the word currently being read. -/
def splitWsAux : Str → Str → List Str
  | [], acc => if acc = [] then [] else [acc]
  | c :: cs, acc =>
    if pyIsSpace c then
      (if acc = [] then splitWsAux cs [] else acc :: splitWsAux cs [])
    else splitWsAux cs (acc ++ [c])

/-- Python `s.split()`: split on runs of whitespace, dropping empty pieces. -/
def splitWs (s : Str) : List Str := splitWsAux s []

/-- Python space-join of a word list. -/
def joinWords : List Str → Str
  | [] => []
  | [w] => w
  | w :: ws => w ++ 32 :: joinWords ws

/-- The whitespace-normalisation step (space-join of the split words)
applied after the NUL and control-character filters of `sanitize_input`. -/
def normCore (s : Str) : Str :=
  joinWords (splitWs ((s.filter (fun c => decide (c ≠ 0))).filter pyKeep))

/-- Embedding of `utils.sanitize_input(user_input, max_length)`: strip NUL bytes, strip
control characters except `\n \r \t`, normalise whitespace, then truncate
to `max_length` if the result is longer. -/
def sanitize_input (s : Str) (maxLength : Nat) : Str :=
  if s = [] then []
  else
    let s3 := normCore s
    if maxLength < s3.length then s3.take maxLength else s3

/-! ### utils.py : validate_email -/

/-- Local-part character class `[a-zA-Z0-9._%+-]`. -/
def isLocalChar (c : Nat) : Bool :=
  decide (97 ≤ c ∧ c ≤ 122) || decide (65 ≤ c ∧ c ≤ 90) ||
  decide (48 ≤ c ∧ c ≤ 57) ||
  decide (c = 46) || decide (c = 95) || decide (c = 37) ||
  decide (c = 43) || decide (c = 45)

/-- Domain character class `[a-zA-Z0-9.-]`. -/
def isDomainChar (c : Nat) : Bool :=
  decide (97 ≤ c ∧ c ≤ 122) || decide (65 ≤ c ∧ c ≤ 90) ||
  decide (48 ≤ c ∧ c ≤ 57) || decide (c = 46) || decide (c = 45)

/-- Letter class `[a-zA-Z]`. -/
def isAlphaChar (c : Nat) : Bool :=
  decide (97 ≤ c ∧ c ≤ 122) || decide (65 ≤ c ∧ c ≤ 90)

/-- All decompositions of `s` into a pair `(a, b)` with `a ++ b = s`. -/
def splits : Str → List (Str × Str)
  | [] => [([], [])]
  | c :: cs => ([], c :: cs) :: (splits cs).map (fun pr => (c :: pr.1, pr.2))

/-- Class check `[a-zA-Z]{2,}` against the whole of `t`. -/
def isTld (t : Str) : Bool := decide (2 ≤ t.length) && t.all isAlphaChar

/-- The final `[a-zA-Z]{2,}$` of the e-mail regex against the remainder
`t`: in Python `re`, `$` matches at the end of the string or just before
a newline that ends the string. -/
def tailOk (t : Str) : Bool :=
  isTld t || (decide (t.getLast? = some 10) && isTld t.dropLast)

/-- The part of the e-mail regex after the `@`:
`[a-zA-Z0-9.-]+\.[a-zA-Z]{2,}$` against `u`, by exhaustive split search
(regex backtracking tries every split); 46 is the codepoint of `.`. -/
def afterAt (u : Str) : Bool :=
  (splits u).any fun pr =>
    decide (pr.1 ≠ []) && pr.1.all isDomainChar &&
      (match pr.2 with
       | c :: t => decide (c = 46) && tailOk t
       | [] => false)

/-- Embedding of `re.match` with the pattern
`^[a-zA-Z0-9._%+-]+@[a-zA-Z0-9.-]+\.[a-zA-Z]\x7b2,\x7d$` as a Boolean:
does some decomposition of `s` match; 64 is the codepoint of `@`. -/
def emailRegexMatch (s : Str) : Bool :=
  (splits s).any fun pr =>
    decide (pr.1 ≠ []) && pr.1.all isLocalChar &&
      (match pr.2 with
       | c :: u => decide (c = 64) && afterAt u
       | [] => false)

/-- Embedding of `utils.validate_email(email)`: false for the empty string and for
strings longer than 254; otherwise the regex match. -/
def validate_email (s : Str) : Bool :=
  if s = [] then false
  else if 254 < s.length then false
  else emailRegexMatch s

/-- The pattern the specification describes for `validate_email`:
`s` is exactly `local@domain.tld` with `local` in `[A-Za-z0-9._%+-]+`,
`domain` in `[A-Za-z0-9.-]+` and `tld` two or more letters. -/
def emailPat (s : Str) : Prop :=
  ∃ l d t : Str, s = l ++ 64 :: (d ++ 46 :: t) ∧
    l ≠ [] ∧ (∀ c ∈ l, isLocalChar c = true) ∧
    d ≠ [] ∧ (∀ c ∈ d, isDomainChar c = true) ∧
    2 ≤ t.length ∧ (∀ c ∈ t, isAlphaChar c = true)

/-! ### utils.py : the Argon2 credential hasher -/

/-- The Python exceptions the source distinguishes in its handlers. -/
inductive PyExc where
  | valueError
  | verifyMismatchError
  | verificationError
  | invalidHash
  | otherExc
deriving DecidableEq, Repr

/-- The codepoints of the encoded-hash header written by the library. -/
def argonMagic : Str := [36, 97, 114, 103, 111, 110, 50, 105, 100, 36]

/-- Modelled from the spec: the third-party Argon2 primitive `ph.hash`.
§4.1 describes it as a salted one-way function whose output is an encoded
string embedding its parameters and salt, such that `verify` succeeds
exactly on the hashed password.  The model encodes the salt and a tag
determined by the password behind the `$argon2id$` header; the salt is a
URL-safe token and so never contains the separator `$` (codepoint 36). -/
def phHash (salt p : Str) : Str := argonMagic ++ salt ++ 36 :: p

/-- Decode an encoded hash into its salt and tag, if well-formed. -/
def phParse (h : Str) : Option (Str × Str) :=
  if h.take 10 = argonMagic then
    let r := h.drop 10
    match r.dropWhile (fun c => decide (c ≠ 36)) with
    | 36 :: tag => some (r.takeWhile (fun c => decide (c ≠ 36)), tag)
    | _ => none
  else none

/-- Modelled from the spec: the third-party Argon2 primitive `ph.verify`,
which raises `InvalidHash` on an undecodable hash string and
`VerifyMismatchError` when the password does not match. -/
def phVerify (h p : Str) : Except PyExc Unit :=
  match phParse h with
  | none => .error .invalidHash
  | some pr => if pr.2 = p then .ok () else .error .verifyMismatchError

/-- Embedding of `utils.hash_password(password)`: raises `ValueError` on an empty or
over-long password, otherwise returns the encoded Argon2 hash.  The salt
drawn by the library is an explicit parameter. -/
def hash_password (salt p : Str) : Except PyExc Str :=
  if p = [] then .error .valueError
  else if 200 < p.length then .error .valueError
  else .ok (phHash salt p)

/-- Embedding of `utils.verify_password(password_hash, password)`: false on empty
inputs; otherwise runs `ph.verify` under handlers that turn
`VerifyMismatchError`, `(VerificationError, InvalidHash)` and any other
`Exception` into `False`.  The result is `Except` so that an escaped
exception would be observable; the handlers leave none. -/
def verify_password (password_hash p : Str) : Except PyExc Bool :=
  if password_hash = [] ∨ p = [] then .ok false
  else
    match (do phVerify password_hash p; pure true : Except PyExc Bool) with
    | .ok b => .ok b
    | .error .verifyMismatchError => .ok false
    | .error .verificationError => .ok false
    | .error .invalidHash => .ok false
    | .error _ => .ok false

/-! ### models.py : User -/

/-- Embedding of `models.User`: `id` is `None` or an integer (SQLite row ids are
positive, but the model keeps `Option Nat` and tests truthiness the way
`if not self.id` does). -/
structure User where
  id : Option Nat
  username : Str
  password_hash : Str
  email : Str
  created_at : Int
deriving DecidableEq, Repr

/-- Python truthiness of an `Optional[int]`: `None` and `0` are falsy. -/
def idTruthy : Option Nat → Bool
  | none => false
  | some n => decide (n ≠ 0)

/-- Outcome of a SQLite statement, as distinguished by the handlers in
the source: success (with the new row id for inserts), `sqlite3.IntegrityError`,
another `sqlite3.Error`, or an unexpected exception. -/
inductive DbOutcome where
  | ok (rowid : Nat)
  | integrityError
  | sqliteError
  | otherError
deriving DecidableEq, Repr

/-- Embedding of `User.save(self)`: validates username, email and password hash
(raising `ValueError`), then inserts; `IntegrityError`, other
`sqlite3.Error` and unexpected exceptions are each caught and turned into
`False`.  Returns the flag and the user object after the call (`self.id`
is assigned only on success). -/
def User.save (u : User) (outcome : DbOutcome) : Except PyExc (Bool × User) :=
  if u.username = [] ∨ 50 < u.username.length then .error .valueError
  else if u.email = [] ∨ 100 < u.email.length then .error .valueError
  else if u.password_hash = [] then .error .valueError
  else
    match outcome with
    | .ok rowid => .ok (true, { u with id := some rowid })
    | .integrityError => .ok (false, u)
    | .sqliteError => .ok (false, u)
    | .otherError => .ok (false, u)

/-- Embedding of `User.set_password(self, plain_password)`: raises `ValueError` when
the password is falsy or shorter than 8 or longer than 200 characters,
otherwise replaces `self.password_hash` with the new hash. -/
def User.set_password (u : User) (salt p : Str) : Except PyExc User :=
  if p = [] ∨ p.length < 8 then .error .valueError
  else if 200 < p.length then .error .valueError
  else do
    let h ← hash_password salt p
    pure { u with password_hash := h }

/-- Embedding of `User.check_password(self, plain_password)`: false when the stored
hash or the candidate is empty, else delegates to `verify_password`. -/
def User.check_password (u : User) (p : Str) : Except PyExc Bool :=
  if u.password_hash = [] ∨ p = [] then .ok false
  else verify_password u.password_hash p

/-- Embedding of `User.update_password(self, new_password)`: false when `self.id` is
falsy; otherwise `set_password` runs first (a `ValueError` from it is
caught, leaving the object untouched), then the UPDATE runs — a storage
failure there is caught and turned into `False` after the in-memory hash
was already replaced.  `dbOk` is the outcome of the UPDATE. -/
def User.update_password (u : User) (salt p : Str) (dbOk : Bool) : Bool × User :=
  if ¬ idTruthy u.id then (false, u)
  else
    match u.set_password salt p with
    | .error _ => (false, u)
    | .ok u2 => if dbOk then (true, u2) else (false, u2)

/-! ### models.py : Session -/

/-- Embedding of `models.Session`. -/
structure Session where
  id : Option Nat
  user_id : Int
  token : Str
  created_at : Int
  expires_at : Int
deriving DecidableEq, Repr

/-- Embedding of `Session.create(user_id, expiration_hours)`: `None` when `user_id` is
not a positive integer or the INSERT fails; otherwise builds the row with
`expires_at = created_at + timedelta(hours=expiration_hours)` and appends
it to the store.  The token drawn from `generate_token`, the clock value,
the fresh row id and the INSERT outcome are explicit parameters. -/
def Session.create (user_id : Int) (expiration_hours : Int) (token : Str)
    (now : Int) (nextId : Nat) (store : List Session) (dbOk : Bool) :
    Option Session × List Session :=
  if user_id ≤ 0 then (none, store)
  else if ¬ dbOk then (none, store)
  else
    let s : Session :=
      { id := some nextId, user_id := user_id, token := token,
        created_at := now, expires_at := now + expiration_hours * 3600 }
    (some s, store ++ [s])

/-- Embedding of `Session.find_by_token(token)`: `None` on an empty token, else the
first row with `token = ? AND expires_at > now`. -/
def Session.find_by_token (store : List Session) (token : Str) (now : Int) :
    Option Session :=
  if token = [] then none
  else store.find? (fun s => decide (s.token = token ∧ now < s.expires_at))

/-- Embedding of `Session.is_valid(self)`: `datetime.now() < self.expires_at`. -/
def Session.is_valid (s : Session) (now : Int) : Bool :=
  decide (now < s.expires_at)

/-- Embedding of `Session.revoke(self)`: false when `self.id` is falsy; otherwise
`DELETE FROM sessions WHERE id = ?` (which succeeds whether or not a row
matches) and `True`.  No field of `self` is assigned.  Returns the flag,
the object after the call, and the store after the DELETE. -/
def Session.revoke (s : Session) (store : List Session) :
    Bool × Session × List Session :=
  if ¬ idTruthy s.id then (false, s, store)
  else (true, s, store.filter (fun r => decide (r.id ≠ s.id)))

/-! ### Concrete records used in counterexamples and witnesses -/

/-- A persisted session (assigned identity), token `"t"`. -/
def sEx : Session :=
  { id := some 1, user_id := 1, token := [116], created_at := 0, expires_at := 100 }

/-- A session as built by `Session.create 1 1 "t"` at time 0. -/
def sExp : Session :=
  { id := some 1, user_id := 1, token := [116], created_at := 0, expires_at := 3600 }

/-- A valid unsaved user: username `"j"`, email `"e"`, hash `"h"`. -/
def uEx : User :=
  { id := none, username := [106], password_hash := [104], email := [101],
    created_at := 0 }

/-- A persisted user: id 1. -/
def uEx1 : User :=
  { id := some 1, username := [106], password_hash := [104], email := [101],
    created_at := 0 }

/-! ## Lemmas -/

theorem dropWhile_append_all {p : Nat → Bool} {l r : Str}
    (h : ∀ c ∈ l, p c = true) : (l ++ r).dropWhile p = r.dropWhile p := by
  induction l with
  | nil => rfl
  | cons c cs ih =>
    simp only [List.cons_append, List.dropWhile_cons, h c (by simp)]
    exact ih fun x hx => h x (by simp [hx])

theorem takeWhile_append_all {p : Nat → Bool} {l r : Str}
    (h : ∀ c ∈ l, p c = true) : (l ++ r).takeWhile p = l ++ r.takeWhile p := by
  induction l with
  | nil => rfl
  | cons c cs ih =>
    simp only [List.cons_append, List.takeWhile_cons, h c (by simp)]
    exact congrArg (c :: ·) (ih fun x hx => h x (by simp [hx]))

/-- Filtering twice with the same predicate filters once. -/
theorem filter_idem {α : Type} (p : α → Bool) (l : List α) :
    (l.filter p).filter p = l.filter p :=
  List.filter_eq_self.mpr fun a ha => (List.mem_filter.mp ha).2

/-- Decoding inverts encoding when the salt avoids the separator. -/
theorem phParse_phHash {salt : Str} (p : Str) (hs : (36 : Nat) ∉ salt) :
    phParse (phHash salt p) = some (salt, p) := by
  have hsep : ∀ c ∈ salt, (fun c => decide (c ≠ 36)) c = true := by
    intro c hc
    simp only [decide_eq_true_eq]
    exact fun h => hs (h ▸ hc)
  have hmagic : argonMagic.length = 10 := rfl
  unfold phParse phHash
  rw [show argonMagic ++ salt ++ 36 :: p = argonMagic ++ (salt ++ 36 :: p) by
        simp [List.append_assoc]]
  rw [← hmagic, List.take_left, List.drop_left, if_pos rfl]
  simp only [dropWhile_append_all hsep, takeWhile_append_all hsep]
  simp

/-! ## Claims -/

/-- C1 (counterexample): for the persisted session `sEx`, the first
`revoke` succeeds, yet a second `revoke` on the resulting store returns
`true`, not `false` — `revoke` never clears `self.id`, so the guard that
returns `false` is not taken and the second DELETE simply deletes zero
rows. -/
theorem revoke_twice_counterexample :
    idTruthy sEx.id = true ∧
    (Session.revoke sEx [sEx]).1 = true ∧
    (Session.revoke sEx ((Session.revoke sEx [sEx]).2.2)).1 = true := by
  decide

/-- C1 (amended): `revoke` returns `false` exactly when the session has no
assigned identity; for a persisted session a second `revoke` after a
successful one returns `true` without raising, and leaves the store in the
same (absent) state the first call produced. -/
theorem revoke_second_call (s : Session) (store : List Session) :
    ((Session.revoke s store).1 = false ↔ idTruthy s.id = false) ∧
    (idTruthy s.id = true →
      Session.revoke s ((Session.revoke s store).2.2) =
        (true, s, (Session.revoke s store).2.2)) := by
  constructor
  · rcases Bool.eq_false_or_eq_true (idTruthy s.id) with h | h
    · simp [Session.revoke, h]
    · simp [Session.revoke, h]
  · intro h
    have hfi := filter_idem (fun r => decide (r.id ≠ s.id)) store
    simp [Session.revoke, h, hfi]

/-- C1 (witness for the amended theorem at `sEx`). -/
theorem revoke_second_call_witness :
    Session.revoke sEx ((Session.revoke sEx [sEx]).2.2) =
      (true, sEx, (Session.revoke sEx [sEx]).2.2) :=
  (revoke_second_call sEx [sEx]).2 (by decide)

/-- C2 (counterexample): for the valid user `uEx`, a uniqueness violation
(`sqlite3.IntegrityError`) and a generic storage fault (`sqlite3.Error`)
produce the identical observable result `False` from `User.save` — the
caller cannot distinguish them. -/
theorem save_duplicate_counterexample :
    User.save uEx .integrityError = .ok (false, uEx) ∧
    User.save uEx .integrityError = User.save uEx .sqliteError :=
  ⟨rfl, rfl⟩

/-- C2 (amended): a uniqueness violation during `User.save` is caught and
surfaced as the return value `False` (no exception), which is the same
observable result as any other storage failure; the distinction exists
only in log output. -/
theorem save_duplicate_indistinct (u : User) (h1 : u.username ≠ [])
    (h2 : u.username.length ≤ 50) (h3 : u.email ≠ [])
    (h4 : u.email.length ≤ 100) (h5 : u.password_hash ≠ []) :
    User.save u .integrityError = .ok (false, u) ∧
    User.save u .sqliteError = .ok (false, u) ∧
    User.save u .integrityError = User.save u .sqliteError := by
  unfold User.save
  rw [if_neg (by simp [h1]; omega), if_neg (by simp [h3]; omega),
      if_neg (by simp [h5])]
  exact ⟨rfl, rfl, rfl⟩

/-- C2 (witness for the amended theorem at `uEx`). -/
theorem save_duplicate_indistinct_witness :
    User.save uEx .integrityError = .ok (false, uEx) :=
  (save_duplicate_indistinct uEx (by decide) (by decide) (by decide)
    (by decide) (by decide)).1

/-- C4 (counterexample): `Session.create` accepts `expiration_hours = 0`
and then builds a session whose expiry equals its creation timestamp —
not strictly after it. -/
theorem create_zero_hours_counterexample :
    (Session.create 1 0 [116] 5 1 [] true).1 =
      some { id := some 1, user_id := 1, token := [116], created_at := 5,
             expires_at := 5 } ∧
    ¬ ((5 : Int) < 5) := by
  decide

/-- C4 (amended): a session returned by `Session.create` has its expiry
strictly after its creation timestamp exactly when `expiration_hours` is
at least 1; with `expiration_hours = 0` the two timestamps coincide. -/
theorem create_expiry_after_creation (uid hours : Int) (tok : Str)
    (now : Int) (nid : Nat) (store st2 : List Session) (s : Session)
    (h : Session.create uid hours tok now nid store true = (some s, st2)) :
    s.created_at < s.expires_at ↔ 1 ≤ hours := by
  unfold Session.create at h
  by_cases hu : uid ≤ 0
  · simp [hu] at h
  · rw [if_neg hu, if_neg (by simp)] at h
    injection h with h1 h2
    injection h1 with h1
    subst h1
    simp only
    omega

/-- C4 (witness for the amended theorem: one hour at time 0). -/
theorem create_expiry_after_creation_witness :
    sExp.created_at < sExp.expires_at :=
  (create_expiry_after_creation 1 1 [116] 0 1 [] [sExp] sExp
    (by decide)).mpr (by decide)

/-- Evaluation of `verify_password`: it always returns (never raises),
with `true` exactly on a decodable hash whose tag matches. -/
theorem verify_password_eq (h p : Str) :
    verify_password h p =
      .ok (if h = [] ∨ p = [] then false
           else match phParse h with
                | some pr => decide (pr.2 = p)
                | none => false) := by
  unfold verify_password
  by_cases he : h = [] ∨ p = []
  · rw [if_pos he, if_pos he]
  · rw [if_neg he, if_neg he]
    unfold phVerify
    cases hp : phParse h with
    | none => simp
    | some pr =>
      by_cases hm : pr.2 = p
      · simp [hm]
      · simp [hm]

/-- C5: for passwords of valid length (8–200), verification after hashing
succeeds exactly for the original password: `verify(hash(p), p)` is true
and `verify(hash(p), q)` is false whenever `p ≠ q`.  The salt drawn by the
library is any separator-free string. -/
theorem hash_verify_roundtrip (salt p q : Str) (hsalt : (36 : Nat) ∉ salt)
    (hp1 : 8 ≤ p.length) (hp2 : p.length ≤ 200)
    (hq1 : 8 ≤ q.length) (hq2 : q.length ≤ 200) :
    ∃ hp, hash_password salt p = .ok hp ∧
      verify_password hp p = .ok true ∧
      (p ≠ q → verify_password hp q = .ok false) := by
  have hpne : p ≠ [] := by
    intro hx
    rw [hx] at hp1
    simp at hp1
  have hne : phHash salt p ≠ [] := by simp [phHash, argonMagic]
  have hh : hash_password salt p = .ok (phHash salt p) := by
    unfold hash_password
    rw [if_neg hpne, if_neg (by omega)]
  refine ⟨phHash salt p, hh, ?_, ?_⟩
  · rw [verify_password_eq, if_neg (by push_neg; exact ⟨hne, hpne⟩),
      phParse_phHash p hsalt]
    simp
  · intro hpq
    have hqne : q ≠ [] := by
      intro hx
      rw [hx] at hq1
      simp at hq1
    rw [verify_password_eq, if_neg (by push_neg; exact ⟨hne, hqne⟩),
      phParse_phHash p hsalt]
    simp [hpq]

/-- C5 (witness at salt `"s"`, `p = "password"`, `q = "passwore"`). -/
theorem hash_verify_roundtrip_witness :
    ∃ hp, hash_password [115] [112, 97, 115, 115, 119, 111, 114, 100] =
        .ok hp ∧
      verify_password hp [112, 97, 115, 115, 119, 111, 114, 100] = .ok true ∧
      ([112, 97, 115, 115, 119, 111, 114, 100] ≠
          ([112, 97, 115, 115, 119, 111, 114, 101] : Str) →
        verify_password hp [112, 97, 115, 115, 119, 111, 114, 101] =
          .ok false) :=
  hash_verify_roundtrip [115] [112, 97, 115, 115, 119, 111, 114, 100]
    [112, 97, 115, 115, 119, 111, 114, 101] (by decide) (by decide)
    (by decide) (by decide) (by decide)

/-- C8: `verify_password` never lets an exception escape (its result is
always `.ok`), and returns `false` whenever the hash or the password is
empty, the hash string is malformed (undecodable), or the password does
not match the decoded tag; `User.check_password` then returns `false` in
the same situations. -/
theorem verify_password_never_raises (h p : Str) (u : User) :
    (∃ b, verify_password h p = .ok b) ∧
    ((h = [] ∨ p = [] ∨ ∀ pr, phParse h = some pr → pr.2 ≠ p) →
      verify_password h p = .ok false) ∧
    ((u.password_hash = [] ∨ p = [] ∨
        ∀ pr, phParse u.password_hash = some pr → pr.2 ≠ p) →
      u.check_password p = .ok false) := by
  have key : ∀ g : Str,
      (g = [] ∨ p = [] ∨ ∀ pr, phParse g = some pr → pr.2 ≠ p) →
      verify_password g p = .ok false := by
    intro g hc
    rw [verify_password_eq]
    by_cases he : g = [] ∨ p = []
    · rw [if_pos he]
    · rw [if_neg he]
      rcases hc with hc | hc | hc
      · exact absurd (Or.inl hc) he
      · exact absurd (Or.inr hc) he
      · cases hp : phParse g with
        | none => rfl
        | some pr => simp [hc pr hp]
  refine ⟨⟨_, verify_password_eq h p⟩, key h, ?_⟩
  intro hc
  unfold User.check_password
  by_cases he : u.password_hash = [] ∨ p = []
  · rw [if_pos he]
  · rw [if_neg he]
    exact key u.password_hash hc

/-- C8 (witness: empty hash). -/
theorem verify_password_never_raises_witness :
    verify_password [] [112] = .ok false :=
  (verify_password_never_raises [] [112] uEx).2.1 (Or.inl rfl)

/-- C9: when `update_password` fails because the storage write failed (for
a persisted account and a valid new password), the in-memory
`password_hash` has already been replaced with the hash of the new
password; when it fails because the account has no identity or the
password fails validation, the object is unchanged. -/
theorem update_password_frame (u : User) (salt p : Str) (dbOk : Bool) :
    (idTruthy u.id = false → u.update_password salt p dbOk = (false, u)) ∧
    ((p = [] ∨ p.length < 8 ∨ 200 < p.length) →
      u.update_password salt p dbOk = (false, u)) ∧
    (idTruthy u.id = true → 8 ≤ p.length → p.length ≤ 200 → dbOk = false →
      u.update_password salt p dbOk =
        (false, { u with password_hash := phHash salt p })) := by
  refine ⟨?_, ?_, ?_⟩
  · intro h
    unfold User.update_password
    rw [if_pos (by simp [h])]
  · intro hbad
    unfold User.update_password
    by_cases hid : idTruthy u.id
    · rw [if_neg (by simp [hid])]
      have hsp : ∃ e, u.set_password salt p = .error e := by
        unfold User.set_password
        rcases hbad with hb | hb | hb
        · exact ⟨_, by rw [if_pos (Or.inl hb)]⟩
        · exact ⟨_, by rw [if_pos (Or.inr hb)]⟩
        · refine ⟨PyExc.valueError, ?_⟩
          have hbne : p ≠ [] := by
            intro hx
            rw [hx] at hb
            simp at hb
          rw [if_neg (by push_neg; exact ⟨hbne, by omega⟩), if_pos hb]
      obtain ⟨e, he⟩ := hsp
      rw [he]
    · rw [if_pos (by simpa using hid)]
  · intro hid hlen1 hlen2 hdb
    unfold User.update_password
    rw [if_neg (by simp [hid])]
    have hpne : p ≠ [] := by
      intro hx
      rw [hx] at hlen1
      simp at hlen1
    have hsp : u.set_password salt p =
        .ok { u with password_hash := phHash salt p } := by
      unfold User.set_password hash_password
      rw [if_neg (by push_neg; exact ⟨hpne, by omega⟩), if_neg (by omega),
        if_neg hpne, if_neg (by omega)]
      rfl
    rw [hsp, hdb]
    rfl

/-- C9 (witness: persisted user `uEx1`, salt `"s"`, password
`"password"`, failing UPDATE). -/
theorem update_password_frame_witness :
    uEx1.update_password [115] [112, 97, 115, 115, 119, 111, 114, 100]
        false =
      (false, { uEx1 with password_hash :=
        (phHash [115] [112, 97, 115, 115, 119, 111, 114, 100]) }) :=
  (update_password_frame uEx1 [115]
    [112, 97, 115, 115, 119, 111, 114, 100] false).2.2 (by decide)
    (by decide) (by decide) rfl

/-- C10: a successful `revoke` returns `true` and leaves the in-memory
session object unchanged, so `is_valid` on it still answers from the
untouched `expires_at`, while `find_by_token` for its token (when no
other row shares the token) returns absent. -/
theorem revoke_preserves_object (s : Session) (store : List Session)
    (now : Int) (hid : idTruthy s.id = true)
    (huniq : ∀ r ∈ store, r.token = s.token → r.id = s.id) :
    (Session.revoke s store).1 = true ∧
    (Session.revoke s store).2.1 = s ∧
    (now < s.expires_at →
      Session.is_valid (Session.revoke s store).2.1 now = true) ∧
    Session.find_by_token (Session.revoke s store).2.2 s.token now =
      none := by
  have hrev : Session.revoke s store =
      (true, s, store.filter (fun r => decide (r.id ≠ s.id))) := by
    unfold Session.revoke
    rw [if_neg (by simp [hid])]
  rw [hrev]
  refine ⟨rfl, rfl, ?_, ?_⟩
  · intro hlt
    simp [Session.is_valid, hlt]
  · unfold Session.find_by_token
    by_cases ht : s.token = []
    · rw [if_pos ht]
    · rw [if_neg ht]
      cases hf : List.find? (fun r => decide (r.token = s.token ∧
          now < r.expires_at)) (store.filter (fun r => decide (r.id ≠ s.id)))
        with
      | none => rfl
      | some r =>
        exfalso
        have hmem := List.mem_of_find?_eq_some hf
        have hpred := List.find?_some hf
        simp only [decide_eq_true_eq] at hpred
        have hin := List.mem_filter.mp hmem
        have hrid : r.id ≠ s.id := by simpa using hin.2
        exact hrid (huniq r hin.1 hpred.1)

/-- C10 (witness at `sEx` in a one-row store, before expiry). -/
theorem revoke_preserves_object_witness :
    (Session.revoke sEx [sEx]).2.1 = sEx ∧
    Session.find_by_token (Session.revoke sEx [sEx]).2.2 sEx.token 0 =
      none :=
  ⟨(revoke_preserves_object sEx [sEx] 0 (by decide) (by decide)).2.1,
   (revoke_preserves_object sEx [sEx] 0 (by decide) (by decide)).2.2.2⟩

/-- C7: `find_by_token` is absent exactly when the token is empty or every
stored row with that token has `expires_at ≤ now`; `is_valid` is literally
`now < expires_at`; and a session created with `expiration_hours = 0` is
never returned by `find_by_token` and is invalid from its creation moment
on. -/
theorem find_by_token_absent (store : List Session) (token : Str)
    (now : Int) :
    (Session.find_by_token store token now = none ↔
      token = [] ∨ ∀ s ∈ store, s.token = token → s.expires_at ≤ now) ∧
    (∀ s : Session, Session.is_valid s now = decide (now < s.expires_at)) ∧
    (∀ (uid : Int) (tok : Str) (tnow : Int) (nid : Nat)
        (st2 : List Session) (s : Session),
      Session.create uid 0 tok tnow nid store true = (some s, st2) →
      s.created_at ≤ now →
      (∀ t, Session.find_by_token st2 t now ≠ some s) ∧
      Session.is_valid s now = false) := by
  refine ⟨?_, fun s => rfl, ?_⟩
  · unfold Session.find_by_token
    by_cases ht : token = []
    · simp [ht]
    · rw [if_neg ht, List.find?_eq_none]
      simp only [decide_eq_true_eq, not_and]
      constructor
      · intro hall
        refine Or.inr fun s hs hst => ?_
        have := hall s hs hst
        omega
      · intro hor s hs hst
        rcases hor with h0 | hall
        · exact absurd h0 ht
        · have := hall s hs hst
          omega
  · intro uid tok tnow nid st2 s hcr hle
    unfold Session.create at hcr
    by_cases hu : uid ≤ 0
    · simp [hu] at hcr
    · rw [if_neg hu, if_neg (by simp)] at hcr
      injection hcr with h1 h2
      injection h1 with h1
      subst h1
      constructor
      · intro t hfind
        unfold Session.find_by_token at hfind
        by_cases htt : t = []
        · rw [if_pos htt] at hfind
          exact absurd hfind (by simp)
        · rw [if_neg htt] at hfind
          have hpred := List.find?_some hfind
          simp only [decide_eq_true_eq] at hpred
          have hlt : now < tnow + 0 * 3600 := hpred.2
          have hle2 : tnow ≤ now := hle
          omega
      · simp only [Session.is_valid, decide_eq_false_iff_not]
        have hle2 : tnow ≤ now := hle
        show ¬ now < tnow + 0 * 3600
        omega

/-- C7 (witness: empty store, token `"t"`). -/
theorem find_by_token_absent_witness :
    Session.find_by_token [] [116] 5 = none :=
  (find_by_token_absent [] [116] 5).1.mpr (Or.inr (by simp))

/-! ## Lemmas for sanitize_input -/

/-- Every word produced by `splitWsAux` is nonempty and whitespace-free,
provided the running accumulator is whitespace-free. -/
theorem splitWsAux_good :
    ∀ (s acc : Str), (∀ c ∈ acc, pyIsSpace c = false) →
      ∀ w ∈ splitWsAux s acc, w ≠ [] ∧ ∀ c ∈ w, pyIsSpace c = false := by
  intro s
  induction s with
  | nil =>
    intro acc hacc w hw
    unfold splitWsAux at hw
    by_cases ha : acc = []
    · rw [if_pos ha] at hw
      simp at hw
    · rw [if_neg ha] at hw
      simp only [List.mem_singleton] at hw
      exact hw ▸ ⟨ha, hacc⟩
  | cons c cs ih =>
    intro acc hacc w hw
    unfold splitWsAux at hw
    by_cases hc : pyIsSpace c
    · rw [if_pos hc] at hw
      by_cases ha : acc = []
      · rw [if_pos ha] at hw
        exact ih [] (by simp) w hw
      · rw [if_neg ha] at hw
        rcases List.mem_cons.mp hw with hw | hw
        · exact hw ▸ ⟨ha, hacc⟩
        · exact ih [] (by simp) w hw
    · rw [if_neg hc] at hw
      refine ih (acc ++ [c]) ?_ w hw
      intro x hx
      rcases List.mem_append.mp hx with hx | hx
      · exact hacc x hx
      · simp only [List.mem_singleton] at hx
        subst hx
        exact Bool.eq_false_iff.mpr hc

/-- Characters of the words of `splitWsAux` come from the accumulator or
the input. -/
theorem splitWsAux_chars :
    ∀ (s acc : Str), ∀ w ∈ splitWsAux s acc, ∀ c ∈ w, c ∈ acc ∨ c ∈ s := by
  intro s
  induction s with
  | nil =>
    intro acc w hw c hc
    unfold splitWsAux at hw
    by_cases ha : acc = []
    · rw [if_pos ha] at hw
      simp at hw
    · rw [if_neg ha] at hw
      simp only [List.mem_singleton] at hw
      exact Or.inl (hw ▸ hc)
  | cons a cs ih =>
    intro acc w hw c hc
    unfold splitWsAux at hw
    by_cases hsp : pyIsSpace a
    · rw [if_pos hsp] at hw
      by_cases ha : acc = []
      · rw [if_pos ha] at hw
        rcases ih [] w hw c hc with h | h
        · simp at h
        · exact Or.inr (List.mem_cons_of_mem a h)
      · rw [if_neg ha] at hw
        rcases List.mem_cons.mp hw with hw | hw
        · exact Or.inl (hw ▸ hc)
        · rcases ih [] w hw c hc with h | h
          · simp at h
          · exact Or.inr (List.mem_cons_of_mem a h)
    · rw [if_neg hsp] at hw
      rcases ih (acc ++ [a]) w hw c hc with h | h
      · rcases List.mem_append.mp h with h | h
        · exact Or.inl h
        · simp only [List.mem_singleton] at h
          exact Or.inr (h ▸ List.mem_cons_self a cs)
      · exact Or.inr (List.mem_cons_of_mem a h)

/-- Lemma: `splitWsAux` consumes a whitespace-free block into the accumulator. -/
theorem splitWsAux_word (w : Str) :
    ∀ (r acc : Str), (∀ c ∈ w, pyIsSpace c = false) →
      splitWsAux (w ++ r) acc = splitWsAux r (acc ++ w) := by
  induction w with
  | nil =>
    intro r acc _
    simp
  | cons c w2 ih =>
    intro r acc hw
    have hc : pyIsSpace c = false := hw c (List.mem_cons_self c w2)
    have step : splitWsAux ((c :: w2) ++ r) acc =
        splitWsAux (w2 ++ r) (acc ++ [c]) := by
      show splitWsAux (c :: (w2 ++ r)) acc = _
      simp [splitWsAux, hc]
    rw [step,
      ih r (acc ++ [c]) (fun x hx => hw x (List.mem_cons_of_mem c hx)),
      List.append_assoc]
    rfl

/-- Splitting after joining with single spaces restores the word list,
when every word is nonempty and whitespace-free. -/
theorem splitWs_joinWords :
    ∀ ws : List Str,
      (∀ w ∈ ws, w ≠ [] ∧ ∀ c ∈ w, pyIsSpace c = false) →
      splitWs (joinWords ws) = ws := by
  intro ws
  induction ws with
  | nil => intro _; rfl
  | cons w ws2 ih =>
    intro hgood
    obtain ⟨hwne, hwsp⟩ := hgood w (List.mem_cons_self w ws2)
    cases ws2 with
    | nil =>
      show splitWsAux w [] = [w]
      have h1 : splitWsAux (w ++ []) [] = splitWsAux [] ([] ++ w) :=
        splitWsAux_word w [] [] hwsp
      rw [List.append_nil, List.nil_append] at h1
      rw [h1]
      unfold splitWsAux
      rw [if_neg hwne]
    | cons w2 t =>
      show splitWsAux (joinWords (w :: w2 :: t)) [] = w :: w2 :: t
      rw [show joinWords (w :: w2 :: t) = w ++ 32 :: joinWords (w2 :: t)
            from rfl]
      rw [splitWsAux_word w (32 :: joinWords (w2 :: t)) [] hwsp]
      unfold splitWsAux
      rw [if_pos (by decide), if_neg (by simpa using hwne)]
      have := ih (fun x hx => hgood x (List.mem_cons_of_mem w hx))
      exact congrArg (w :: ·) this

/-- Characters of a space-joined word list are the space or word
characters. -/
theorem joinWords_chars :
    ∀ (ws : List Str) (c : Nat), c ∈ joinWords ws →
      c = 32 ∨ ∃ w ∈ ws, c ∈ w := by
  intro ws
  induction ws with
  | nil =>
    intro c hc
    simp [joinWords] at hc
  | cons w ws2 ih =>
    intro c hc
    cases ws2 with
    | nil =>
      simp only [joinWords] at hc
      exact Or.inr ⟨w, List.mem_cons_self w [], hc⟩
    | cons w2 t =>
      rw [show joinWords (w :: w2 :: t) = w ++ 32 :: joinWords (w2 :: t)
            from rfl] at hc
      rcases List.mem_append.mp hc with h | h
      · exact Or.inr ⟨w, List.mem_cons_self w (w2 :: t), h⟩
      · rcases List.mem_cons.mp h with h | h
        · exact Or.inl h
        · rcases ih c h with h2 | ⟨w3, hw3, hcw3⟩
          · exact Or.inl h2
          · exact Or.inr ⟨w3, List.mem_cons_of_mem w hw3, hcw3⟩

/-- C3 (counterexample): with `max_length = 2`, truncation of
`"a b"` leaves the trailing space `"a "`, and a second `sanitize` strips
it — `sanitize` is not idempotent on truncated inputs. -/
theorem sanitize_truncation_counterexample :
    sanitize_input [97, 32, 98] 2 = [97, 32] ∧
    sanitize_input [97, 32] 2 = [97] ∧
    sanitize_input (sanitize_input [97, 32, 98] 2) 2 ≠
      sanitize_input [97, 32, 98] 2 := by
  decide

/-- C3 (amended): `sanitize_input` is idempotent on every input whose
whitespace-normalised form fits within `max_length` (no truncation); a
truncation that cuts just after a space breaks idempotence. -/
theorem sanitize_input_idempotent (s : Str) (maxLength : Nat)
    (htr : (normCore s).length ≤ maxLength) :
    sanitize_input (sanitize_input s maxLength) maxLength =
      sanitize_input s maxLength := by
  by_cases hs : s = []
  · subst hs
    rfl
  · have hout : sanitize_input s maxLength = normCore s := by
      unfold sanitize_input
      rw [if_neg hs, if_neg (by omega)]
    rw [hout]
    by_cases hbe : normCore s = []
    · rw [hbe]
      rfl
    · have hbchars : ∀ c ∈ normCore s,
          (fun c => decide (c ≠ 0)) c = true ∧ pyKeep c = true := by
        intro c hc
        rcases joinWords_chars _ c hc with h32 | ⟨w, hw, hcw⟩
        · subst h32
          exact ⟨by decide, by decide⟩
        · have hcmem := splitWsAux_chars _ [] w hw c hcw
          simp only [List.not_mem_nil, false_or] at hcmem
          have h2 := List.mem_filter.mp hcmem
          have h1 := List.mem_filter.mp h2.1
          exact ⟨h1.2, h2.2⟩
      have hf1 : (normCore s).filter (fun c => decide (c ≠ 0)) =
          normCore s :=
        List.filter_eq_self.mpr fun c hc => (hbchars c hc).1
      have hf2 : (normCore s).filter pyKeep = normCore s := by
        refine List.filter_eq_self.mpr fun c hc => (hbchars c hc).2
      have hsplit : splitWs (normCore s) =
          splitWs ((s.filter (fun c => decide (c ≠ 0))).filter pyKeep) := by
        exact splitWs_joinWords _ (splitWsAux_good _ [] (by simp))
      have hnc : normCore (normCore s) = normCore s := by
        unfold normCore
        rw [show (joinWords (splitWs ((s.filter
            (fun c => decide (c ≠ 0))).filter pyKeep))) = normCore s
            from rfl]
        rw [hf1, hf2, hsplit]
        rfl
      unfold sanitize_input
      rw [if_neg hbe, hnc, if_neg (by omega)]

/-- C3 (witness: `"a b"` with the default `max_length = 1000`). -/
theorem sanitize_input_idempotent_witness :
    sanitize_input (sanitize_input [97, 32, 98] 1000) 1000 =
      sanitize_input [97, 32, 98] 1000 :=
  sanitize_input_idempotent [97, 32, 98] 1000 (by decide)

/-! ## Lemmas for validate_email -/

/-- Lemma: `splits` enumerates exactly the decompositions of `s`. -/
theorem mem_splits : ∀ (s a b : Str), (a, b) ∈ splits s ↔ a ++ b = s := by
  intro s
  induction s with
  | nil =>
    intro a b
    simp [splits, List.append_eq_nil, Prod.ext_iff]
  | cons c cs ih =>
    intro a b
    simp only [splits, List.mem_cons, List.mem_map]
    constructor
    · rintro (h | ⟨⟨a2, b2⟩, hmem, heq⟩)
      · injection h with ha hb
        subst ha
        subst hb
        rfl
      · injection heq with ha hb
        subst ha
        subst hb
        have h2 := (ih a2 b2).mp hmem
        show c :: (a2 ++ b2) = c :: cs
        rw [h2]
    · intro he
      cases a with
      | nil =>
        left
        simp only [List.nil_append] at he
        rw [he]
      | cons x a2 =>
        right
        injection he with hx hrest
        subst hx
        exact ⟨(a2, b), (ih a2 b).mpr hrest, rfl⟩

/-- Searching all splits is the existence of a matching decomposition. -/
theorem splits_any_iff (s : Str) (f : Str × Str → Bool) :
    (splits s).any f = true ↔ ∃ a b, a ++ b = s ∧ f (a, b) = true := by
  rw [List.any_eq_true]
  constructor
  · rintro ⟨⟨a, b⟩, hm, hf⟩
    exact ⟨a, b, (mem_splits s a b).mp hm, hf⟩
  · rintro ⟨a, b, he, hf⟩
    exact ⟨(a, b), (mem_splits s a b).mpr he, hf⟩

theorem isTld_iff (t : Str) :
    isTld t = true ↔ 2 ≤ t.length ∧ ∀ c ∈ t, isAlphaChar c = true := by
  simp [isTld, List.all_eq_true]

/-- Lemma: `tailOk` accepts exactly a 2+-letter block, optionally followed by one
final newline. -/
theorem tailOk_iff (t1 : Str) :
    tailOk t1 = true ↔
      ∃ t tail, t1 = t ++ tail ∧ (tail = [] ∨ tail = [10]) ∧
        2 ≤ t.length ∧ ∀ c ∈ t, isAlphaChar c = true := by
  unfold tailOk
  rw [Bool.or_eq_true, Bool.and_eq_true]
  constructor
  · rintro (h | ⟨hlast, hdrop⟩)
    · rw [isTld_iff] at h
      exact ⟨t1, [], by simp, Or.inl rfl, h⟩
    · rw [decide_eq_true_eq] at hlast
      rcases List.eq_nil_or_concat t1 with rfl | ⟨t0, a, rfl⟩
      · simp at hlast
      · rw [List.concat_eq_append] at hlast hdrop ⊢
        rw [List.getLast?_concat] at hlast
        injection hlast with ha
        subst ha
        rw [List.dropLast_concat, isTld_iff] at hdrop
        exact ⟨t0, [10], rfl, Or.inr rfl, hdrop⟩
  · rintro ⟨t, tail, rfl, htail | htail, hlen, hall⟩
    · subst htail
      left
      rw [List.append_nil, isTld_iff]
      exact ⟨hlen, hall⟩
    · subst htail
      right
      refine ⟨?_, ?_⟩
      · rw [decide_eq_true_eq, List.getLast?_concat]
      · rw [List.dropLast_concat, isTld_iff]
        exact ⟨hlen, hall⟩

/-- The regex piece after `@` accepts exactly a nonempty domain block,
a dot, and a `tailOk` remainder. -/
theorem afterAt_iff (u : Str) :
    afterAt u = true ↔
      ∃ d t tail, u = d ++ 46 :: (t ++ tail) ∧ (tail = [] ∨ tail = [10]) ∧
        d ≠ [] ∧ (∀ c ∈ d, isDomainChar c = true) ∧
        2 ≤ t.length ∧ ∀ c ∈ t, isAlphaChar c = true := by
  unfold afterAt
  rw [splits_any_iff]
  constructor
  · rintro ⟨d, r, hsplit, hf⟩
    simp only [Bool.and_eq_true, decide_eq_true_eq, List.all_eq_true] at hf
    obtain ⟨⟨hd1, hd2⟩, hm⟩ := hf
    cases r with
    | nil => simp at hm
    | cons c t1 =>
      simp only [Bool.and_eq_true, decide_eq_true_eq] at hm
      obtain ⟨hc, ht1⟩ := hm
      subst hc
      rw [tailOk_iff] at ht1
      obtain ⟨t, tail, ht, htail, hlen, hall⟩ := ht1
      subst ht
      exact ⟨d, t, tail, hsplit.symm, htail, hd1, hd2, hlen, hall⟩
  · rintro ⟨d, t, tail, rfl, htail, hd1, hd2, hlen, hall⟩
    refine ⟨d, 46 :: (t ++ tail), rfl, ?_⟩
    have h1 : decide (d ≠ []) = true := decide_eq_true hd1
    have h2 : d.all isDomainChar = true := List.all_eq_true.mpr hd2
    have h3 : tailOk (t ++ tail) = true :=
      (tailOk_iff _).mpr ⟨t, tail, rfl, htail, hlen, hall⟩
    show (decide (d ≠ []) && d.all isDomainChar &&
      (decide ((46 : Nat) = 46) && tailOk (t ++ tail))) = true
    rw [h1, h2, h3]
    rfl

/-- The whole regex accepts exactly `local@domain.tld`, optionally
followed by one final newline (Python `$` semantics). -/
theorem emailRegexMatch_iff (s : Str) :
    emailRegexMatch s = true ↔
      ∃ l d t tail, s = l ++ 64 :: (d ++ 46 :: (t ++ tail)) ∧
        (tail = [] ∨ tail = [10]) ∧
        l ≠ [] ∧ (∀ c ∈ l, isLocalChar c = true) ∧
        d ≠ [] ∧ (∀ c ∈ d, isDomainChar c = true) ∧
        2 ≤ t.length ∧ ∀ c ∈ t, isAlphaChar c = true := by
  unfold emailRegexMatch
  rw [splits_any_iff]
  constructor
  · rintro ⟨l, r, hsplit, hf⟩
    simp only [Bool.and_eq_true, decide_eq_true_eq, List.all_eq_true] at hf
    obtain ⟨⟨hl1, hl2⟩, hm⟩ := hf
    cases r with
    | nil => simp at hm
    | cons c u =>
      simp only [Bool.and_eq_true, decide_eq_true_eq] at hm
      obtain ⟨hc, hba⟩ := hm
      subst hc
      rw [afterAt_iff] at hba
      obtain ⟨d, t, tail, hu, htail, hd1, hd2, hlen, hall⟩ := hba
      subst hu
      exact ⟨l, d, t, tail, hsplit.symm, htail, hl1, hl2, hd1, hd2, hlen,
        hall⟩
  · rintro ⟨l, d, t, tail, rfl, htail, hl1, hl2, hd1, hd2, hlen, hall⟩
    refine ⟨l, 64 :: (d ++ 46 :: (t ++ tail)), rfl, ?_⟩
    have h1 : decide (l ≠ []) = true := decide_eq_true hl1
    have h2 : l.all isLocalChar = true := List.all_eq_true.mpr hl2
    have h3 : afterAt (d ++ 46 :: (t ++ tail)) = true :=
      (afterAt_iff _).mpr ⟨d, t, tail, rfl, htail, hd1, hd2, hlen, hall⟩
    show (decide (l ≠ []) && l.all isLocalChar &&
      (decide ((64 : Nat) = 64) && afterAt (d ++ 46 :: (t ++ tail)))) =
      true
    rw [h1, h2, h3]
    rfl

/-- C6 (counterexample): `"a@bb.cc\n"` — length 8, not of the shape
`local@domain.tld` because of the trailing newline — is nevertheless
accepted by `validate_email`, since Python `$` also matches just before a
string-final newline. -/
theorem validate_email_newline_counterexample :
    validate_email [97, 64, 98, 98, 46, 99, 99, 10] = true ∧
    ([97, 64, 98, 98, 46, 99, 99, 10] : Str).length ≤ 254 ∧
    ¬ emailPat [97, 64, 98, 98, 46, 99, 99, 10] := by
  refine ⟨by decide, by decide, ?_⟩
  rintro ⟨l, d, t, heq, hl1, hl2, hd1, hd2, hlen, hall⟩
  rcases List.eq_nil_or_concat t with rfl | ⟨t0, a, rfl⟩
  · simp at hlen
  · have hre : ([97, 64, 98, 98, 46, 99, 99, 10] : Str) =
        (l ++ 64 :: (d ++ 46 :: t0)) ++ [a] := by
      rw [heq]
      simp [List.append_assoc]
    have hlast : ((l ++ 64 :: (d ++ 46 :: t0)) ++ [a]).getLast? =
        some a := List.getLast?_concat _
    rw [← hre] at hlast
    have ha : a = 10 := by
      have hl10 : ([97, 64, 98, 98, 46, 99, 99, 10] : Str).getLast? =
          some 10 := by decide
      rw [hl10] at hlast
      injection hlast with h
      exact h.symm
    subst ha
    have h10 := hall 10 (by simp)
    exact absurd h10 (by decide)

/-- C6 (amended): `validate_email s` is true iff `s` has length at most
254 and either `s` itself, or `s` with one final newline removed, is of
the shape `local@domain.tld` (local in `[A-Za-z0-9._%+-]+`, domain in
`[A-Za-z0-9.-]+`, tld 2+ letters); in particular it is false for empty,
oversized, or otherwise malformed input. -/
theorem validate_email_iff (s : Str) :
    validate_email s = true ↔
      s.length ≤ 254 ∧
        (emailPat s ∨ ∃ s0, s = s0 ++ [10] ∧ emailPat s0) := by
  unfold validate_email
  by_cases hs : s = []
  · subst hs
    rw [if_pos rfl]
    constructor
    · intro h
      exact absurd h (by simp)
    · rintro ⟨hlen, hpat | ⟨s0, hs0, hpat⟩⟩
      · obtain ⟨l, d, t, heq, hl1, hrest⟩ := hpat
        have hlenq := congrArg List.length heq
        simp only [List.length_nil, List.length_append, List.length_cons]
          at hlenq
        exfalso
        omega
      · have hlenq := congrArg List.length hs0
        simp only [List.length_nil, List.length_append, List.length_cons]
          at hlenq
        exfalso
        omega
  · rw [if_neg hs]
    by_cases hlen : 254 < s.length
    · rw [if_pos hlen]
      constructor
      · intro h
        exact absurd h (by simp)
      · rintro ⟨hl, hrest⟩
        omega
    · rw [if_neg hlen, emailRegexMatch_iff]
      constructor
      · rintro ⟨l, d, t, tail, rfl, htail, h1, h2, h3, h4, h5, h6⟩
        refine ⟨by omega, ?_⟩
        rcases htail with rfl | rfl
        · exact Or.inl ⟨l, d, t, by simp, h1, h2, h3, h4, h5, h6⟩
        · refine Or.inr ⟨l ++ 64 :: (d ++ 46 :: t), ?_,
            l, d, t, rfl, h1, h2, h3, h4, h5, h6⟩
          simp [List.append_assoc]
      · rintro ⟨hl254, hpat | ⟨s0, rfl, hpat⟩⟩
        · obtain ⟨l, d, t, rfl, h1, h2, h3, h4, h5, h6⟩ := hpat
          exact ⟨l, d, t, [], by simp, Or.inl rfl, h1, h2, h3, h4, h5, h6⟩
        · obtain ⟨l, d, t, rfl, h1, h2, h3, h4, h5, h6⟩ := hpat
          refine ⟨l, d, t, [10], ?_, Or.inr rfl, h1, h2, h3, h4, h5, h6⟩
          simp [List.append_assoc]

end LegacyAppSecure
